import Mathlib

/-!
Verification of the prefect workflow-definition core and its agent CLI.

The repository ships two source artifacts: the agent command-line module
(`src/prefect/cli/agent.py`) and the test suite of the flow engine
(`tests/test_flow.py`).  The flow engine itself (`prefect/flow.py`,
`prefect/task.py`, `prefect/context.py`) is not part of the source tree, so
its data model and operations are modelled from the specification
(`spec.md`, sections 3, 4 and 7); every such definition carries a doc
comment starting with `Modelled from the spec:`.  The CLI definitions are
translated directly from `src/prefect/cli/agent.py`.
-/

namespace Prefect

/-- Modelled from the spec: a Task is an identified, named unit of work.
Object identity (`id`) is distinct from the task's `name`; the opaque
executable capability is never invoked by the core and is not modelled. -/
structure Task where
  id : Nat
  name : String
deriving DecidableEq, Repr

/-- Modelled from the spec, section 7: the error kinds surfaced by the core. -/
inductive PrefectError where
  | invalidArgument (msg : String)
  | duplicateName (name : String)
  | noActiveFlow
  | taskNotFound (name : String)
  | cycleDetected (t : Task)
deriving DecidableEq, Repr

/-- A dynamically typed constructor argument, as in the Python source where
`Flow(name=1)` passes an integer where a string is expected. -/
inductive PyVal where
  | vstr (s : String)
  | vint (n : Int)
deriving DecidableEq, Repr

/-- Modelled from the spec: the Dependency Registry maps each task to the
list of its direct predecessors; insertion order of the keys is the
registration order (the sequence number assigned at `add_task` time). -/
abbrev Registry := List (Task × List Task)

/-- Modelled from the spec: a Flow owns a name and a Dependency Registry
whose key set is the node set; the name index is derived from the keys. -/
structure Flow where
  name : String
  graph : Registry
deriving DecidableEq, Repr

/-- The key list (node set in registration order) of a registry. -/
def keys (g : Registry) : List Task := g.map Prod.fst

/-- Position of a task in a list: the number of strictly earlier entries. -/
def posOf : List Task → Task → Nat
  | [], _ => 0
  | x :: l, t => if x = t then 0 else posOf l t + 1

/-- First-match association lookup in a registry. -/
def lookupTask : Registry → Task → Option (List Task)
  | [], _ => none
  | p :: g, t => if p.1 = t then some p.2 else lookupTask g t

/-- Modelled from the spec: the node set of a flow, in registration order. -/
def Flow.nodes (f : Flow) : List Task := keys f.graph

/-- Direct predecessors of a task in a registry (empty if unregistered). -/
def predsG (g : Registry) (t : Task) : List Task := (lookupTask g t).getD []

/-- Modelled from the spec: the predecessor set of a task in a flow. -/
def Flow.predsOf (f : Flow) (t : Task) : List Task := predsG f.graph t

/-- The recorded-edge relation of a registry: `edgG g u d` holds when `u` is
listed as a direct predecessor of `d`. -/
def edgG (g : Registry) (u d : Task) : Prop := u ∈ predsG g d

/-- Modelled from the spec: the recorded dependency edge predecessor → task. -/
def Flow.edg (f : Flow) (u d : Task) : Prop := edgG f.graph u d

/-- A flow's registry contains a cycle: some task reaches itself through a
non-empty chain of recorded edges. -/
def Flow.Cyclic (f : Flow) : Prop := ∃ t, Relation.TransGen f.edg t t

/-- A flow's registry is acyclic. -/
def Flow.Acyclic (f : Flow) : Prop := ¬ f.Cyclic

/-- Modelled from the spec, section 3: well-formedness invariants of a Flow.
Keys are distinct (they are Python dict keys), task names are unique within
the flow, and every recorded predecessor is a member of the node set. -/
def Flow.WF (f : Flow) : Prop :=
  f.nodes.Nodup ∧ (f.nodes.map Task.name).Nodup ∧
    ∀ p ∈ f.graph, ∀ u ∈ p.2, u ∈ f.nodes

instance (f : Flow) : Decidable f.WF := by
  unfold Flow.WF; infer_instance

/-- Modelled from the spec: constructing a Flow.  Passing no name, or a
non-string name, is a contract violation (`InvalidArgument`). -/
def Flow.init : Option PyVal → Except PrefectError Flow
  | none =>
      .error (.invalidArgument "missing 1 required positional argument: name")
  | some (.vstr s) => .ok { name := s, graph := [] }
  | some (.vint _) => .error (.invalidArgument "Name must be a string")

/-- Modelled from the spec, section 4.1: `add_task` is idempotent on members,
rejects a different task carrying an already-indexed name with
`DuplicateName`, and otherwise appends the task with an empty predecessor
set (thereby indexing its name and assigning the next sequence number). -/
def Flow.add_task (f : Flow) (t : Task) : Except PrefectError Flow :=
  if t ∈ f.nodes then .ok f
  else if f.nodes.any (fun u => decide (u.name = t.name)) then
    .error (.duplicateName t.name)
  else .ok { f with graph := f.graph ++ [(t, [])] }

/-- Modelled from the spec, section 4.3: exact-match lookup by name. -/
def Flow.get_task (f : Flow) (s : String) : Except PrefectError Task :=
  match f.nodes.find? (fun u => decide (u.name = s)) with
  | some u => .ok u
  | none => .error (.taskNotFound s)

/-- Insert `u` into the predecessor set of `d` (set semantics: no duplicate
entry is created); all other entries are untouched. -/
def addEdge (g : Registry) (u d : Task) : Registry :=
  g.map (fun p => if p.1 = d then (p.1, if u ∈ p.2 then p.2 else p.2 ++ [u]) else p)

/-- Modelled from the spec, section 4.2: `declare_precedes` registers both
endpoints via `add_task` and then records `upstream` as a predecessor of
`downstream`; it never inspects the graph for cycles. -/
def Flow.declare_precedes (f : Flow) (upstream downstream : Task) :
    Except PrefectError Flow :=
  match f.add_task upstream with
  | .error e => .error e
  | .ok f₁ =>
    match f₁.add_task downstream with
    | .error e => .error e
    | .ok f₂ => .ok { f₂ with graph := addEdge f₂.graph upstream downstream }

/-- A registry entry is ready when its key is unemitted and every direct
predecessor has already been emitted (in-degree zero among the remainder). -/
def isReady (emitted : List Task) (p : Task × List Task) : Bool :=
  !decide (p.1 ∈ emitted) && p.2.all (fun u => decide (u ∈ emitted))

/-- First still-unemitted direct predecessor of a task, used to trace a
predecessor chain through the leftover set for cycle diagnosis. -/
def pickPred (g : Registry) (emitted : List Task) (t : Task) : Option Task :=
  (predsG g t).find? (fun u => !decide (u ∈ emitted))

/-- Modelled from the spec, section 4.4: walk predecessor chains through the
leftover set until a task repeats; the repeated task lies on a cycle. -/
def traceCycle (g : Registry) (emitted : List Task) :
    Nat → List Task → Task → Task
  | 0, _, t => t
  | fuel + 1, path, t =>
    if t ∈ path then t
    else
      match pickPred g emitted t with
      | some u => traceCycle g emitted fuel (t :: path) u
      | none => t

/-- Modelled from the spec, section 4.4: Kahn's algorithm.  At every step the
first (minimal registration sequence number) ready entry is emitted; when no
entry is ready but unemitted keys remain, compilation fails with
`CycleDetected` reporting a task found by tracing a predecessor chain. -/
def sortedTasksAux (g : Registry) : Nat → List Task → Except PrefectError (List Task)
  | 0, emitted => .ok emitted
  | fuel + 1, emitted =>
    match g.find? (isReady emitted) with
    | some p => sortedTasksAux g fuel (emitted ++ [p.1])
    | none =>
      match (keys g).find? (fun t => !decide (t ∈ emitted)) with
      | some t =>
          .error (.cycleDetected (traceCycle g emitted (g.length + 1) [] t))
      | none => .ok emitted

/-- Modelled from the spec, section 4.4: the Topological Compiler. -/
def Flow.sorted_tasks (f : Flow) : Except PrefectError (List Task) :=
  sortedTasksAux f.graph (f.graph.length + 1) []

/-- Modelled from the spec, section 3: the Flow Context Stack, innermost
flow first. -/
abbrev Ctx := List Flow

/-- Modelled from the spec: the scoped open operation pushes a flow. -/
def openFlow (ctx : Ctx) (f : Flow) : Ctx := f :: ctx

/-- Modelled from the spec: closing a scope pops the innermost flow. -/
def closeFlow (ctx : Ctx) : Ctx := ctx.tail

/-- Modelled from the spec, section 4.1: constructing a Task while the
Context Stack is non-empty passes it to `add_task` for the innermost open
flow; with an empty stack no registration happens. -/
def constructTask (ctx : Ctx) (t : Task) : Except PrefectError Ctx :=
  match ctx with
  | [] => .ok []
  | f :: rest => (f.add_task t).map (fun f' => f' :: rest)

end Prefect

namespace PrefectCli

/-- Translation of `labels = sorted(set(label))` from
`src/prefect/cli/agent.py` (used at lines 93, 168 and 322 by `start_agent`
and the local/kubernetes `install` commands): the distinct label values in
lexicographic order. -/
def cliSortedLabels (label : List String) : List String :=
  List.insertionSort (· ≤ ·) label.dedup

/-- Python's `e.split("=", 1)` restricted to success: split a character list
at the first `'='`, returning the part before it and the entire remainder;
`none` when the list contains no `'='`. -/
def splitAtFirstEq : List Char → Option (List Char × List Char)
  | [] => none
  | c :: cs =>
    if c = '=' then some ([], cs)
    else
      match splitAtFirstEq cs with
      | some (k, v) => some (c :: k, v)
      | none => none

/-- One `--env` entry parsed as by `e.split("=", 1)` feeding `dict(...)`:
a key/value pair, or `none` when the entry contains no `'='`. -/
def parseEnvEntry (e : String) : Option (String × String) :=
  match splitAtFirstEq e.data with
  | some (k, v) => some (⟨k⟩, ⟨v⟩)
  | none => none

/-- Python dict insertion: a later binding of an existing key overwrites it
in place, a new key is appended. -/
def upsert (m : List (String × String)) (k v : String) : List (String × String) :=
  if m.any (fun p => decide (p.1 = k)) then
    m.map (fun p => if p.1 = k then (p.1, v) else p)
  else m ++ [(k, v)]

/-- Builds the dictionary left to right; an entry without `'='` makes the
whole construction fail, as `dict(e.split("=", 1) for e in env)` raises
`ValueError` on a one-element sequence. -/
def envVarsAux : List (String × String) → List String →
    Except String (List (String × String))
  | m, [] => .ok m
  | m, e :: rest =>
    match parseEnvEntry e with
    | some (k, v) => envVarsAux (upsert m k v) rest
    | none =>
      .error "dictionary update sequence element has length 1; 2 is required"

/-- Translation of `env_vars = dict(e.split("=", 1) for e in env)` from
`src/prefect/cli/agent.py`, line 94. -/
def env_vars (env : List String) : Except String (List (String × String)) :=
  envVarsAux [] env

end PrefectCli

namespace Prefect

/-! ### Basic facts about positions and registry lookup -/

lemma posOf_cons_self (l : List Task) (t : Task) : posOf (t :: l) t = 0 := by
  simp [posOf]

lemma posOf_cons_ne (l : List Task) (x t : Task) (h : x ≠ t) :
    posOf (x :: l) t = posOf l t + 1 := by
  simp [posOf, h]

lemma posOf_lt_length (l : List Task) (t : Task) (h : t ∈ l) :
    posOf l t < l.length := by
  induction l with
  | nil => cases h
  | cons x l ih =>
    by_cases hx : x = t
    · simp [posOf, hx]
    · rcases List.mem_cons.mp h with h' | h'
      · exact absurd h'.symm hx
      · simpa [posOf, hx] using ih h'

lemma posOf_append_of_mem (l l' : List Task) (t : Task) (h : t ∈ l) :
    posOf (l ++ l') t = posOf l t := by
  induction l with
  | nil => cases h
  | cons x l ih =>
    by_cases hx : x = t
    · simp [posOf, hx]
    · rcases List.mem_cons.mp h with h' | h'
      · exact absurd h'.symm hx
      · simp [posOf, hx, ih h']

lemma posOf_append_self (l : List Task) (t : Task) (h : t ∈ l → False) :
    posOf (l ++ [t]) t = l.length := by
  induction l with
  | nil => simp [posOf]
  | cons x l ih =>
    have hx : x ≠ t := fun he => h (he ▸ List.mem_cons_self x l)
    simp [posOf, hx, ih (fun hm => h (List.mem_cons_of_mem x hm))]

lemma lookupTask_eq_of_mem (g : Registry) (hk : (keys g).Nodup)
    (p : Task × List Task) (hp : p ∈ g) : lookupTask g p.1 = some p.2 := by
  induction g with
  | nil => cases hp
  | cons q g ih =>
    have hk' : (keys g).Nodup := by
      simpa [keys] using hk.of_cons
    rcases List.mem_cons.mp hp with h | h
    · subst h; simp [lookupTask]
    · have hne : q.1 ≠ p.1 := by
        intro he
        have h1 : p.1 ∈ keys g := List.mem_map_of_mem Prod.fst h
        have h2 : q.1 ∉ keys g := by
          have := hk
          simp only [keys, List.map_cons, List.nodup_cons] at this
          exact this.1
        exact h2 (he ▸ h1)
      simp [lookupTask, hne, ih hk' h]

lemma mem_keys_of_lookupTask (g : Registry) (t : Task) (ps : List Task)
    (h : lookupTask g t = some ps) : t ∈ keys g := by
  induction g with
  | nil => simp [lookupTask] at h
  | cons q g ih =>
    by_cases hq : q.1 = t
    · simp only [keys, List.map_cons, List.mem_cons]
      exact Or.inl hq.symm
    · simp only [lookupTask, hq, if_false] at h
      simp only [keys, List.map_cons, List.mem_cons]
      exact Or.inr (by simpa [keys] using ih h)

lemma lookupTask_isSome_of_mem_keys (g : Registry) (t : Task)
    (h : t ∈ keys g) : ∃ ps, lookupTask g t = some ps := by
  induction g with
  | nil => simp [keys] at h
  | cons q g ih =>
    by_cases hq : q.1 = t
    · exact ⟨q.2, by simp [lookupTask, hq]⟩
    · simp only [keys, List.map_cons, List.mem_cons] at h
      rcases h with h | h
      · exact absurd h.symm hq
      · simpa [lookupTask, hq] using ih h

lemma mem_keys_of_edgG (g : Registry) (u d : Task) (h : edgG g u d) :
    d ∈ keys g := by
  unfold edgG predsG at h
  cases hl : lookupTask g d with
  | none => rw [hl] at h; simp at h
  | some ps => exact mem_keys_of_lookupTask g d ps hl

lemma lookupTask_append_right (g h : Registry) (t : Task)
    (hnot : t ∉ keys g) : lookupTask (g ++ h) t = lookupTask h t := by
  induction g with
  | nil => simp
  | cons q g ih =>
    have hq : q.1 ≠ t := by
      intro he
      exact hnot (by simp [keys, he])
    have : t ∉ keys g := fun hm => hnot (by simp [keys] at hm ⊢; exact Or.inr hm)
    simp [lookupTask, hq, ih this]

lemma find?_append_none {α : Type} (p : α → Bool) (l₁ l₂ : List α)
    (h : l₁.find? p = none) : (l₁ ++ l₂).find? p = l₂.find? p := by
  simp [List.find?_append, h]

end Prefect

namespace Prefect

/-! ### Invariant of the topological compiler loop -/

/-- Invariant of the emitted output: no duplicates, only registered nodes,
and every emitted task appears strictly after each of its predecessors. -/
def Inv (g : Registry) (emitted : List Task) : Prop :=
  emitted.Nodup ∧ (∀ t ∈ emitted, t ∈ keys g) ∧
    ∀ d ∈ emitted, ∀ u ∈ predsG g d,
      u ∈ emitted ∧ posOf emitted u < posOf emitted d

lemma inv_extend (g : Registry) (hk : (keys g).Nodup) (emitted : List Task)
    (p : Task × List Task) (hfind : g.find? (isReady emitted) = some p)
    (hinv : Inv g emitted) : Inv g (emitted ++ [p.1]) := by
  obtain ⟨hnd, hsub, htopo⟩ := hinv
  have hmem : p ∈ g := List.mem_of_find?_eq_some hfind
  have hready : isReady emitted p = true := List.find?_some hfind
  unfold isReady at hready
  rw [Bool.and_eq_true] at hready
  obtain ⟨h1, h2⟩ := hready
  have hnew : p.1 ∉ emitted := by simpa using h1
  have hpreds : ∀ u ∈ p.2, u ∈ emitted := by
    intro u hu
    simpa using List.all_eq_true.mp h2 u hu
  have hlook : lookupTask g p.1 = some p.2 := lookupTask_eq_of_mem g hk p hmem
  refine ⟨?_, ?_, ?_⟩
  · simp [List.nodup_append, hnd, hnew]
  · intro t ht
    rcases List.mem_append.mp ht with h | h
    · exact hsub t h
    · have ht' : t = p.1 := by simpa using h
      exact ht' ▸ List.mem_map_of_mem Prod.fst hmem
  · intro d hd u hu
    rcases List.mem_append.mp hd with h | h
    · obtain ⟨hum, hlt⟩ := htopo d h u hu
      refine ⟨List.mem_append_left _ hum, ?_⟩
      rw [posOf_append_of_mem _ _ _ hum, posOf_append_of_mem _ _ _ h]
      exact hlt
    · have hdp : d = p.1 := by simpa using h
      subst hdp
      have hup : u ∈ p.2 := by
        unfold predsG at hu
        rw [hlook] at hu
        simpa using hu
      have hue : u ∈ emitted := hpreds u hup
      refine ⟨List.mem_append_left _ hue, ?_⟩
      rw [posOf_append_of_mem _ _ _ hue, posOf_append_self _ _ (fun hc => hnew hc)]
      exact posOf_lt_length _ _ hue

lemma sortedTasksAux_ok (g : Registry) (hk : (keys g).Nodup) :
    ∀ fuel emitted out, Inv g emitted →
      g.length + 1 ≤ fuel + emitted.length →
      sortedTasksAux g fuel emitted = .ok out →
      Inv g out ∧ ∀ t ∈ keys g, t ∈ out := by
  intro fuel
  induction fuel with
  | zero =>
    intro emitted out hinv hfuel h
    exfalso
    have hsub : emitted ⊆ keys g := fun t ht => hinv.2.1 t ht
    have hle : emitted.length ≤ (keys g).length :=
      (hinv.1.subperm hsub).length_le
    have hkl : (keys g).length = g.length := by simp [keys]
    omega
  | succ fuel ih =>
    intro emitted out hinv hfuel h
    simp only [sortedTasksAux] at h
    cases hfind : g.find? (isReady emitted) with
    | some p =>
      rw [hfind] at h
      refine ih (emitted ++ [p.1]) out (inv_extend g hk emitted p hfind hinv) ?_ h
      simp only [List.length_append, List.length_cons, List.length_nil]
      omega
    | none =>
      rw [hfind] at h
      cases hleft : (keys g).find? (fun t => !decide (t ∈ emitted)) with
      | some t => rw [hleft] at h; cases h
      | none =>
        rw [hleft] at h
        cases h
        refine ⟨hinv, ?_⟩
        intro t ht
        have := List.find?_eq_none.mp hleft t ht
        simpa using this

lemma sorted_tasks_ok_inv (f : Flow) (hk : f.nodes.Nodup)
    (out : List Task) (h : f.sorted_tasks = .ok out) :
    Inv f.graph out ∧ ∀ t ∈ keys f.graph, t ∈ out := by
  refine sortedTasksAux_ok f.graph hk (f.graph.length + 1) [] out ?_ (by simp) h
  exact ⟨List.nodup_nil, by simp, by simp⟩

end Prefect

namespace Prefect

/-! ### Cycle diagnosis: the reported task lies on a recorded cycle -/

lemma chain'_transGen {α : Type} (r : α → α → Prop) :
    ∀ (l : List α) (a b : α), List.Chain' r (a :: l) → b ∈ l →
      Relation.TransGen r a b := by
  intro l
  induction l with
  | nil => intro a b _ hb; cases hb
  | cons c l ih =>
    intro a b hchain hb
    have hac : r a c := (List.chain'_cons.mp hchain).1
    have hcl : List.Chain' r (c :: l) := (List.chain'_cons.mp hchain).2
    rcases List.mem_cons.mp hb with h | h
    · exact h ▸ Relation.TransGen.single hac
    · exact Relation.TransGen.head hac (ih c b hcl h)

lemma traceCycle_mem_cycle (g : Registry) (emitted : List Task)
    (hstep : ∀ t, t ∈ keys g → t ∉ emitted →
      ∃ u, pickPred g emitted t = some u ∧ u ∈ keys g ∧ u ∉ emitted ∧ edgG g u t) :
    ∀ fuel path t, t ∈ keys g → t ∉ emitted → (∀ x ∈ path, x ∈ keys g) →
      path.Nodup → List.Chain' (edgG g) (t :: path) →
      (keys g).length < fuel + path.length →
      Relation.TransGen (edgG g) (traceCycle g emitted fuel path t)
        (traceCycle g emitted fuel path t) := by
  intro fuel
  induction fuel with
  | zero =>
    intro path t _ _ hpk hpn _ hbound
    exfalso
    have hle : path.length ≤ (keys g).length :=
      (hpn.subperm (fun x hx => hpk x hx)).length_le
    omega
  | succ fuel ih =>
    intro path t htk hte hpk hpn hchain hbound
    by_cases hmem : t ∈ path
    · simp only [traceCycle, if_pos hmem]
      exact chain'_transGen (edgG g) path t t hchain hmem
    · obtain ⟨u, hpick, huk, hue, hedge⟩ := hstep t htk hte
      simp only [traceCycle, if_neg hmem, hpick]
      refine ih (t :: path) u huk hue ?_ ?_ ?_ ?_
      · intro x hx
        rcases List.mem_cons.mp hx with h | h
        · exact h ▸ htk
        · exact hpk x h
      · exact List.nodup_cons.mpr ⟨hmem, hpn⟩
      · exact List.chain'_cons.mpr ⟨hedge, hchain⟩
      · simp only [List.length_cons]
        omega

lemma sortedTasksAux_error (g : Registry) (hk : (keys g).Nodup)
    (hcl : ∀ p ∈ g, ∀ u ∈ p.2, u ∈ keys g) :
    ∀ fuel emitted e, sortedTasksAux g fuel emitted = .error e →
      ∃ t, e = .cycleDetected t ∧ Relation.TransGen (edgG g) t t := by
  intro fuel
  induction fuel with
  | zero => intro emitted e h; cases h
  | succ fuel ih =>
    intro emitted e h
    simp only [sortedTasksAux] at h
    cases hfind : g.find? (isReady emitted) with
    | some p =>
      rw [hfind] at h
      exact ih (emitted ++ [p.1]) e h
    | none =>
      rw [hfind] at h
      cases hleft : (keys g).find? (fun t => !decide (t ∈ emitted)) with
      | none => rw [hleft] at h; cases h
      | some t₀ =>
        rw [hleft] at h
        have ht₀k : t₀ ∈ keys g := List.mem_of_find?_eq_some hleft
        have ht₀e : t₀ ∉ emitted := by
          have := List.find?_some hleft
          simpa using this
        have hstep : ∀ t, t ∈ keys g → t ∉ emitted →
            ∃ u, pickPred g emitted t = some u ∧ u ∈ keys g ∧ u ∉ emitted ∧
              edgG g u t := by
          intro t htk hte
          obtain ⟨p, hp, hp1⟩ := List.mem_map.mp htk
          have hnr := List.find?_eq_none.mp hfind p hp
          have hnr' : ¬ isReady emitted p = true := hnr
          unfold isReady at hnr'
          rw [Bool.and_eq_true] at hnr'
          push_neg at hnr'
          have hfst : (!decide (p.1 ∈ emitted)) = true := by
            rw [hp1]; simpa using hte
          have hsnd := hnr' hfst
          have hex : ∃ u ∈ p.2, ¬ u ∈ emitted := by
            by_contra hall
            push_neg at hall
            exact hsnd (List.all_eq_true.mpr (fun u hu => by
              simpa using hall u hu))
          obtain ⟨u, hu, hue⟩ := hex
          have hlt : lookupTask g t = some p.2 := by
            have := lookupTask_eq_of_mem g hk p hp
            rwa [hp1] at this
          have hpg : predsG g t = p.2 := by
            unfold predsG; rw [hlt]; rfl
          have hfind2 : ∃ u', pickPred g emitted t = some u' := by
            unfold pickPred
            cases hc : (predsG g t).find? (fun u' => !decide (u' ∈ emitted)) with
            | none =>
              exfalso
              have := List.find?_eq_none.mp hc u (by rw [hpg]; exact hu)
              simp at this
              exact hue this
            | some u' => exact ⟨u', rfl⟩
          obtain ⟨u', hu'⟩ := hfind2
          have hu'p : u' ∈ predsG g t := by
            unfold pickPred at hu'
            exact List.mem_of_find?_eq_some hu'
          have hu'e : u' ∉ emitted := by
            unfold pickPred at hu'
            have := List.find?_some hu'
            simpa using this
          have hu'k : u' ∈ keys g := by
            rw [hpg] at hu'p
            exact hcl p hp u' hu'p
          exact ⟨u', hu', hu'k, hu'e, hu'p⟩
        refine ⟨traceCycle g emitted (g.length + 1) [] t₀, ?_, ?_⟩
        · cases h; rfl
        · refine traceCycle_mem_cycle g emitted hstep (g.length + 1) [] t₀
            ht₀k ht₀e (by intro x hx; cases hx) List.nodup_nil
            (List.chain'_singleton t₀) ?_
          simp [keys]

end Prefect

namespace Prefect

/-! ### Consequences: success is a topological order, failure means a cycle -/

instance (f : Flow) (u d : Task) : Decidable (f.edg u d) := by
  unfold Flow.edg edgG; infer_instance

lemma edg_posOf_lt (g : Registry) (out : List Task) (hinv : Inv g out)
    (hall : ∀ t ∈ keys g, t ∈ out) (a b : Task) (h : edgG g a b) :
    posOf out a < posOf out b := by
  have hbk : b ∈ keys g := mem_keys_of_edgG g a b h
  exact (hinv.2.2 b (hall b hbk) a h).2

lemma transGen_posOf_lt (g : Registry) (out : List Task) (hinv : Inv g out)
    (hall : ∀ t ∈ keys g, t ∈ out) (a b : Task)
    (h : Relation.TransGen (edgG g) a b) : posOf out a < posOf out b := by
  induction h with
  | single hab => exact edg_posOf_lt g out hinv hall _ _ hab
  | tail _ hbc ihab => exact lt_trans ihab (edg_posOf_lt g out hinv hall _ _ hbc)

lemma acyclic_of_ok (f : Flow) (hwf : f.WF) (out : List Task)
    (h : f.sorted_tasks = .ok out) : f.Acyclic := by
  rintro ⟨t, htr⟩
  obtain ⟨hinv, hall⟩ := sorted_tasks_ok_inv f hwf.1 out h
  exact absurd (transGen_posOf_lt f.graph out hinv hall t t htr) (lt_irrefl _)

lemma sorted_tasks_cases (f : Flow) (hwf : f.WF) :
    (∃ out, f.sorted_tasks = .ok out) ∨
    (∃ t, f.sorted_tasks = .error (.cycleDetected t) ∧
      Relation.TransGen f.edg t t) := by
  cases hres : f.sorted_tasks with
  | ok out => exact Or.inl ⟨out, rfl⟩
  | error e =>
    obtain ⟨t, he, htr⟩ :=
      sortedTasksAux_error f.graph hwf.1 hwf.2.2 (f.graph.length + 1) [] e hres
    exact Or.inr ⟨t, by rw [he], htr⟩

lemma error_of_cyclic (f : Flow) (hwf : f.WF) (hcyc : f.Cyclic) :
    ∃ t, f.sorted_tasks = .error (.cycleDetected t) ∧
      Relation.TransGen f.edg t t := by
  rcases sorted_tasks_cases f hwf with ⟨out, hout⟩ | h
  · exact absurd hcyc (acyclic_of_ok f hwf out hout)
  · exact h

/-! ### Concrete flows used by the witnesses (from `tests/test_flow.py`) -/

def demoTask1 : Task := { id := 1, name := "t1" }

def demoTask2 : Task := { id := 2, name := "t2" }

def demoTask3 : Task := { id := 3, name := "t3" }

/-- The acyclic three-node flow of `test_cycle_detection`. -/
def demoFlow : Flow :=
  { name := "test",
    graph := [(demoTask1, []), (demoTask2, [demoTask1]),
              (demoTask3, [demoTask2, demoTask1])] }

/-- The same flow after `f.graph[2].add(3)` introduces a cycle. -/
def cycFlow : Flow :=
  { name := "test",
    graph := [(demoTask1, []), (demoTask2, [demoTask1, demoTask3]),
              (demoTask3, [demoTask2, demoTask1])] }

/-! ### Claim theorems C1 - C3 -/

/-- C1: for every Flow whose dependency registry is acyclic, `sorted_tasks`
returns a sequence containing every task of the node set exactly once, and
for every recorded edge the predecessor's position is strictly before the
dependent's position. -/
theorem sorted_tasks_topological_order (f : Flow) (hwf : f.WF)
    (hacy : f.Acyclic) :
    ∃ out, f.sorted_tasks = .ok out ∧ out.Perm f.nodes ∧
      ∀ u d, f.edg u d → posOf out u < posOf out d := by
  rcases sorted_tasks_cases f hwf with ⟨out, hout⟩ | ⟨t, _, htr⟩
  · obtain ⟨hinv, hall⟩ := sorted_tasks_ok_inv f hwf.1 out hout
    refine ⟨out, hout, ?_, ?_⟩
    · exact (hinv.1.subperm (fun t ht => hinv.2.1 t ht)).antisymm
        (hwf.1.subperm (fun t ht => hall t ht))
    · exact fun u d hud => edg_posOf_lt f.graph out hinv hall u d hud
  · exact absurd ⟨t, htr⟩ hacy

theorem sorted_tasks_topological_order_witness :
    ∃ out, demoFlow.sorted_tasks = .ok out ∧ out.Perm demoFlow.nodes ∧
      ∀ u d, demoFlow.edg u d → posOf out u < posOf out d :=
  sorted_tasks_topological_order demoFlow (by decide)
    (acyclic_of_ok demoFlow (by decide) [demoTask1, demoTask2, demoTask3]
      (by rfl))

/-- C2: on a cyclic registry `sorted_tasks` fails with `CycleDetected` and
the reported task participates in a cycle; on an acyclic registry it
succeeds. -/
theorem sorted_tasks_cycle_detected (f : Flow) (hwf : f.WF) :
    (f.Cyclic → ∃ t, f.sorted_tasks = .error (.cycleDetected t) ∧
      Relation.TransGen f.edg t t) ∧
    (f.Acyclic → ∃ out, f.sorted_tasks = .ok out) := by
  refine ⟨fun hcyc => error_of_cyclic f hwf hcyc, fun hacy => ?_⟩
  rcases sorted_tasks_cases f hwf with h | ⟨t, _, htr⟩
  · exact h
  · exact absurd ⟨t, htr⟩ hacy

theorem sorted_tasks_cycle_detected_witness :
    ∃ t, cycFlow.sorted_tasks = .error (.cycleDetected t) ∧
      Relation.TransGen cycFlow.edg t t :=
  (sorted_tasks_cycle_detected cycFlow (by decide)).1
    ⟨demoTask2, Relation.TransGen.head (b := demoTask3) (by decide)
      (Relation.TransGen.single (by decide))⟩

lemma find?_pos_le (pr : Task × List Task → Bool) :
    ∀ g : Registry, (keys g).Nodup → ∀ p, g.find? pr = some p →
      ∀ q ∈ g, pr q = true → posOf (keys g) p.1 ≤ posOf (keys g) q.1 := by
  intro g
  induction g with
  | nil => intro _ p hp; cases hp
  | cons r rest ih =>
    intro hnd p hp q hq hprq
    have hkeys : keys (r :: rest) = r.1 :: keys rest := by simp [keys]
    have hnd' : r.1 ∉ keys rest ∧ (keys rest).Nodup := by
      rw [hkeys] at hnd
      exact List.nodup_cons.mp hnd
    by_cases hr : pr r = true
    · rw [List.find?_cons_of_pos _ hr] at hp
      cases hp
      rw [hkeys, posOf_cons_self]
      exact Nat.zero_le _
    · rw [List.find?_cons_of_neg _ (by simpa using hr)] at hp
      have hpr : p ∈ rest := List.mem_of_find?_eq_some hp
      rcases List.mem_cons.mp hq with hqr | hqr
      · exact absurd (hqr ▸ hprq) hr
      · have hih := ih hnd'.2 p hp q hqr hprq
        have hpne : r.1 ≠ p.1 := by
          intro he
          exact hnd'.1 (he ▸ List.mem_map_of_mem Prod.fst hpr)
        have hqne : r.1 ≠ q.1 := by
          intro he
          exact hnd'.1 (he ▸ List.mem_map_of_mem Prod.fst hqr)
        rw [hkeys, posOf_cons_ne _ _ _ hpne, posOf_cons_ne _ _ _ hqne]
        omega

/-- C3: `sorted_tasks` is a pure function of the flow's contents, and ties
among simultaneously-ready entries are broken by the smallest registration
sequence number (the position in the node list assigned at `add_task` time),
not by hashing or memory addresses. -/
theorem sorted_tasks_deterministic (f f' : Flow) (hwf : f.WF)
    (hg : f.graph = f'.graph) (emitted : List Task) :
    f.sorted_tasks = f'.sorted_tasks ∧
    ∀ p, f.graph.find? (isReady emitted) = some p →
      isReady emitted p = true ∧
      ∀ q ∈ f.graph, isReady emitted q = true →
        posOf f.nodes p.1 ≤ posOf f.nodes q.1 := by
  constructor
  · unfold Flow.sorted_tasks
    rw [hg]
  · intro p hp
    exact ⟨List.find?_some hp,
      fun q hq hrq => find?_pos_le (isReady emitted) f.graph hwf.1 p hp q hq hrq⟩

theorem sorted_tasks_deterministic_witness :
    demoFlow.sorted_tasks = demoFlow.sorted_tasks ∧
    ∀ p, demoFlow.graph.find? (isReady []) = some p →
      isReady [] p = true ∧
      ∀ q ∈ demoFlow.graph, isReady [] q = true →
        posOf demoFlow.nodes p.1 ≤ posOf demoFlow.nodes q.1 :=
  sorted_tasks_deterministic demoFlow demoFlow (by decide) rfl []

end Prefect

namespace Prefect

/-! ### Claim theorems C4 - C7 -/

/-- C4: Flow construction validates its name argument: absent name and
non-string name are rejected with `InvalidArgument`, a string name is
accepted. -/
theorem flow_init_validation :
    Flow.init none =
      .error (.invalidArgument "missing 1 required positional argument: name") ∧
    Flow.init (some (.vint 1)) =
      .error (.invalidArgument "Name must be a string") ∧
    Flow.init (some (.vstr "test")) = .ok { name := "test", graph := [] } :=
  ⟨rfl, rfl, rfl⟩

lemma name_injective (f : Flow) (hwf : f.WF) (u w : Task)
    (hu : u ∈ f.nodes) (hw : w ∈ f.nodes) (hn : u.name = w.name) : u = w := by
  by_contra hne
  have hpw : f.nodes.Pairwise (fun a b => a.name ≠ b.name) := by
    have := hwf.2.1
    rw [List.Nodup, List.pairwise_map] at this
    exact this
  have hsymm : Symmetric (fun a b : Task => a.name ≠ b.name) :=
    fun a b h he => h he.symm
  exact hpw.forall hsymm hu hw hne hn

lemma add_task_mem (f f' : Flow) (t : Task) (h : f.add_task t = .ok f') :
    t ∈ f'.nodes := by
  unfold Flow.add_task at h
  by_cases hm : t ∈ f.nodes
  · rw [if_pos hm] at h
    cases h
    exact hm
  · rw [if_neg hm] at h
    by_cases hd : f.nodes.any (fun u => decide (u.name = t.name)) = true
    · rw [if_pos hd] at h
      cases h
    · rw [if_neg hd] at h
      cases h
      show t ∈ keys (f.graph ++ [(t, [])])
      simp [keys]

/-- C5: `add_task` raises (with `DuplicateName`) exactly when a different
task with the same name is already indexed, is a no-op on an existing
member, and otherwise appends the task with an empty predecessor set and
indexes its name. -/
theorem add_task_spec (f : Flow) (t : Task) (hwf : f.WF) :
    ((∃ e, f.add_task t = .error e) ↔ ∃ u ∈ f.nodes, u.name = t.name ∧ u ≠ t) ∧
    (∀ e, f.add_task t = .error e → e = .duplicateName t.name) ∧
    (t ∈ f.nodes → f.add_task t = .ok f) ∧
    (t ∉ f.nodes → (∀ u ∈ f.nodes, u.name ≠ t.name) →
      ∃ f', f.add_task t = .ok f' ∧ f'.graph = f.graph ++ [(t, [])] ∧
        f'.predsOf t = [] ∧ f'.get_task t.name = .ok t) := by
  refine ⟨⟨?_, ?_⟩, ?_, ?_, ?_⟩
  · rintro ⟨e, he⟩
    unfold Flow.add_task at he
    by_cases hm : t ∈ f.nodes
    · rw [if_pos hm] at he; cases he
    · rw [if_neg hm] at he
      by_cases hd : f.nodes.any (fun u => decide (u.name = t.name)) = true
      · obtain ⟨u, hu, hun⟩ := List.any_eq_true.mp hd
        exact ⟨u, hu, by simpa using hun, fun he' => hm (he' ▸ hu)⟩
      · rw [if_neg hd] at he; cases he
  · rintro ⟨u, hu, hun, hne⟩
    have hm : t ∉ f.nodes := fun hm =>
      hne (name_injective f hwf u t hu hm hun)
    have hd : f.nodes.any (fun u => decide (u.name = t.name)) = true :=
      List.any_eq_true.mpr ⟨u, hu, by simpa using hun⟩
    refine ⟨.duplicateName t.name, ?_⟩
    unfold Flow.add_task
    rw [if_neg hm, if_pos hd]
  · intro e he
    unfold Flow.add_task at he
    by_cases hm : t ∈ f.nodes
    · rw [if_pos hm] at he; cases he
    · rw [if_neg hm] at he
      by_cases hd : f.nodes.any (fun u => decide (u.name = t.name)) = true
      · rw [if_pos hd] at he
        cases he
        rfl
      · rw [if_neg hd] at he; cases he
  · intro hm
    unfold Flow.add_task
    rw [if_pos hm]
  · intro hm hn
    have hd : ¬ f.nodes.any (fun u => decide (u.name = t.name)) = true := by
      intro hd
      obtain ⟨u, hu, hun⟩ := List.any_eq_true.mp hd
      exact hn u hu (by simpa using hun)
    refine ⟨{ f with graph := f.graph ++ [(t, [])] }, ?_, rfl, ?_, ?_⟩
    · unfold Flow.add_task
      rw [if_neg hm, if_neg hd]
    · show predsG (f.graph ++ [(t, [])]) t = []
      unfold predsG
      rw [lookupTask_append_right f.graph [(t, [])] t hm]
      simp [lookupTask]
    · show Flow.get_task _ t.name = .ok t
      unfold Flow.get_task
      have hkeys : Flow.nodes { f with graph := f.graph ++ [(t, [])] } =
          f.nodes ++ [t] := by
        simp [Flow.nodes, keys]
      rw [hkeys]
      have hfn : f.nodes.find? (fun u => decide (u.name = t.name)) = none :=
        List.find?_eq_none.mpr (fun u hu => by simpa using hn u hu)
      rw [find?_append_none _ _ _ hfn]
      simp [List.find?]

theorem add_task_spec_witness :
    ∃ f', demoFlow.add_task { id := 4, name := "t4" } = .ok f' ∧
      f'.graph = demoFlow.graph ++ [({ id := 4, name := "t4" }, [])] ∧
      f'.predsOf { id := 4, name := "t4" } = [] ∧
      f'.get_task "t4" = .ok { id := 4, name := "t4" } :=
  (add_task_spec demoFlow { id := 4, name := "t4" } (by decide)).2.2.2
    (by decide) (by decide)

/-- C6: a Task constructed while the Context Stack is non-empty is
registered to the innermost open Flow and to no other flow: with a nested
scope open, registration targets the inner flow and leaves the outer stack
entries untouched; after the inner scope closes, registration targets the
resumed outer flow. -/
theorem construct_task_innermost (outer inner : Flow) (rest : Ctx)
    (t₁ t₂ : Task) (ctx₁ ctx₂ : Ctx)
    (h₁ : constructTask (openFlow (openFlow rest outer) inner) t₁ = .ok ctx₁)
    (h₂ : constructTask (closeFlow ctx₁) t₂ = .ok ctx₂) :
    (∃ inner', ctx₁ = inner' :: outer :: rest ∧ t₁ ∈ inner'.nodes) ∧
    (∃ outer', ctx₂ = outer' :: rest ∧ t₂ ∈ outer'.nodes) := by
  simp only [openFlow, constructTask] at h₁
  cases ha : inner.add_task t₁ with
  | error e => rw [ha] at h₁; cases h₁
  | ok inner' =>
    rw [ha] at h₁
    simp only [Except.map] at h₁
    cases h₁
    refine ⟨⟨inner', rfl, add_task_mem inner inner' t₁ ha⟩, ?_⟩
    simp only [closeFlow, List.tail_cons, constructTask] at h₂
    cases hb : outer.add_task t₂ with
    | error e => rw [hb] at h₂; cases h₂
    | ok outer' =>
      rw [hb] at h₂
      simp only [Except.map] at h₂
      cases h₂
      exact ⟨outer', rfl, add_task_mem outer outer' t₂ hb⟩

theorem construct_task_innermost_witness :
    (∃ inner', ([{ name := "i", graph := [({ id := 1, name := "t1" }, [])] },
        { name := "o", graph := [] }] : Ctx) = inner' ::
          ({ name := "o", graph := [] } : Flow) :: [] ∧
        ({ id := 1, name := "t1" } : Task) ∈ inner'.nodes) ∧
    (∃ outer', ([{ name := "o", graph := [({ id := 2, name := "t2" }, [])] }] :
        Ctx) = outer' :: [] ∧ ({ id := 2, name := "t2" } : Task) ∈
          outer'.nodes) :=
  construct_task_innermost { name := "o", graph := [] }
    { name := "i", graph := [] } [] { id := 1, name := "t1" }
    { id := 2, name := "t2" } _ _ (by rfl) (by rfl)

/-- C7: `get_task` returns exactly the task object registered under exactly
the requested name, and fails with `TaskNotFound` when no task carries that
name. -/
theorem get_task_exact (f : Flow) (s : String) :
    (∀ t, f.get_task s = .ok t → t ∈ f.nodes ∧ t.name = s) ∧
    ((∀ t ∈ f.nodes, t.name ≠ s) → f.get_task s = .error (.taskNotFound s)) ∧
    (f.WF → ∀ u ∈ f.nodes, u.name = s → f.get_task s = .ok u) := by
  refine ⟨?_, ?_, ?_⟩
  · intro t ht
    unfold Flow.get_task at ht
    cases hf : f.nodes.find? (fun u => decide (u.name = s)) with
    | none => rw [hf] at ht; cases ht
    | some w =>
      rw [hf] at ht
      cases ht
      exact ⟨List.mem_of_find?_eq_some hf, by simpa using List.find?_some hf⟩
  · intro hnone
    unfold Flow.get_task
    have hfn : f.nodes.find? (fun u => decide (u.name = s)) = none :=
      List.find?_eq_none.mpr (fun u hu => by simpa using hnone u hu)
    rw [hfn]
  · intro hwf u hu hname
    cases hf : f.nodes.find? (fun u => decide (u.name = s)) with
    | none =>
      exfalso
      have := List.find?_eq_none.mp hf u hu
      simp [hname] at this
    | some w =>
      have hw : w ∈ f.nodes := List.mem_of_find?_eq_some hf
      have hwn : w.name = s := by simpa using List.find?_some hf
      have hwu : w = u := name_injective f hwf w u hw hu (hwn.trans hname.symm)
      unfold Flow.get_task
      rw [hf, hwu]

theorem get_task_exact_witness :
    demoFlow.get_task "t2" = .ok demoTask2 ∧
    demoFlow.get_task "some task" = .error (.taskNotFound "some task") :=
  ⟨(get_task_exact demoFlow "t2").2.2 (by decide) demoTask2 (by decide) rfl,
   (get_task_exact demoFlow "some task").2.1 (by decide)⟩

end Prefect

namespace Prefect

/-! ### Claim C8: self-edges are recorded and rejected only at compile time -/

lemma lookup_addEdge_self (g : Registry) (u d : Task) (ps : List Task)
    (h : lookupTask g d = some ps) :
    lookupTask (addEdge g u d) d = some (if u ∈ ps then ps else ps ++ [u]) := by
  induction g with
  | nil => cases h
  | cons q g ih =>
    by_cases hq : q.1 = d
    · have hps : q.2 = ps := by
        unfold lookupTask at h
        rw [if_pos hq] at h
        cases h
        rfl
      unfold addEdge
      rw [List.map_cons]
      unfold lookupTask
      rw [if_pos hq, if_pos hq, hps]
    · have h' : lookupTask g d = some ps := by
        unfold lookupTask at h
        rwa [if_neg hq] at h
      unfold addEdge at ih ⊢
      rw [List.map_cons]
      unfold lookupTask
      rw [if_neg hq, if_neg hq]
      exact ih h'

lemma keys_addEdge (g : Registry) (u d : Task) :
    keys (addEdge g u d) = keys g := by
  unfold keys addEdge
  rw [List.map_map]
  refine List.map_congr_left ?_
  intro p _
  by_cases hq : p.1 = d <;> simp [Function.comp, hq]

lemma mem_addEdge (g : Registry) (u d : Task) (q : Task × List Task)
    (hq : q ∈ addEdge g u d) :
    ∃ p ∈ g, q.1 = p.1 ∧ (q.2 = p.2 ∨ q.2 = p.2 ++ [u]) := by
  obtain ⟨p, hp, he⟩ := List.mem_map.mp hq
  refine ⟨p, hp, ?_⟩
  subst he
  by_cases hpd : p.1 = d
  · by_cases hu : u ∈ p.2 <;> simp [hpd, hu]
  · simp [hpd]

lemma wf_addEdge (f : Flow) (u d : Task) (hwf : f.WF) (hu : u ∈ f.nodes) :
    Flow.WF { f with graph := addEdge f.graph u d } := by
  obtain ⟨h1, h2, h3⟩ := hwf
  have hkeys : keys (addEdge f.graph u d) = keys f.graph := keys_addEdge _ _ _
  refine ⟨?_, ?_, ?_⟩
  · show (keys (addEdge f.graph u d)).Nodup
    rw [hkeys]
    exact h1
  · show ((keys (addEdge f.graph u d)).map Task.name).Nodup
    rw [hkeys]
    exact h2
  · intro q hq w hw
    obtain ⟨p, hp, _, hor⟩ := mem_addEdge f.graph u d q hq
    show w ∈ keys (addEdge f.graph u d)
    rw [hkeys]
    rcases hor with h | h
    · exact h3 p hp w (h ▸ hw)
    · rw [h] at hw
      rcases List.mem_append.mp hw with h' | h'
      · exact h3 p hp w h'
      · have hwu : w = u := by simpa using h'
        exact hwu ▸ hu

lemma wf_add_task_append (f : Flow) (t : Task) (hwf : f.WF)
    (hm : t ∉ f.nodes) (hn : ∀ u ∈ f.nodes, u.name ≠ t.name) :
    Flow.WF { f with graph := f.graph ++ [(t, [])] } := by
  obtain ⟨h1, h2, h3⟩ := hwf
  have hkeys : keys (f.graph ++ [(t, [])]) = keys f.graph ++ [t] := by
    simp [keys]
  refine ⟨?_, ?_, ?_⟩
  · show (keys (f.graph ++ [(t, [])])).Nodup
    rw [hkeys]
    simp only [List.nodup_append, List.nodup_cons, List.not_mem_nil,
      not_false_iff, List.nodup_nil, and_true, true_and]
    exact ⟨h1, by simpa [List.disjoint_singleton] using hm⟩
  · show ((keys (f.graph ++ [(t, [])])).map Task.name).Nodup
    rw [hkeys]
    rw [List.map_append]
    simp only [List.map_cons, List.map_nil, List.nodup_append,
      List.nodup_cons, List.not_mem_nil, not_false_iff, List.nodup_nil,
      and_true, true_and]
    refine ⟨h2, ?_⟩
    intro x hx
    simp only [List.mem_singleton]
    obtain ⟨w, hw, hwx⟩ := List.mem_map.mp hx
    intro hxe
    exact hn w hw (by rw [hwx, hxe])
  · intro q hq w hw
    show w ∈ keys (f.graph ++ [(t, [])])
    rw [hkeys]
    rcases List.mem_append.mp hq with h | h
    · exact List.mem_append_left _ (h3 q h w hw)
    · have hqe : q = (t, []) := by simpa using h
      rw [hqe] at hw
      cases hw

lemma add_task_self_ok (f : Flow) (t : Task) (hwf : f.WF)
    (hcl : ∀ u ∈ f.nodes, u.name = t.name → u = t) :
    ∃ f', f.add_task t = .ok f' ∧ f'.WF ∧ t ∈ f'.nodes := by
  by_cases hm : t ∈ f.nodes
  · exact ⟨f, by unfold Flow.add_task; rw [if_pos hm], hwf, hm⟩
  · have hn : ∀ u ∈ f.nodes, u.name ≠ t.name := fun u hu he =>
      hm ((hcl u hu he) ▸ hu)
    have hd : ¬ f.nodes.any (fun u => decide (u.name = t.name)) = true := by
      intro hd
      obtain ⟨u, hu, hun⟩ := List.any_eq_true.mp hd
      exact hn u hu (by simpa using hun)
    refine ⟨{ f with graph := f.graph ++ [(t, [])] }, ?_,
      wf_add_task_append f t hwf hm hn, ?_⟩
    · unfold Flow.add_task
      rw [if_neg hm, if_neg hd]
    · show t ∈ keys (f.graph ++ [(t, [])])
      simp [keys]

/-- C8 (amended): for a task whose name does not collide with a different
registered task, `declare_precedes f t t` succeeds, the self-edge lands in
`t`'s predecessor set, and every subsequent `sorted_tasks` call fails with
`CycleDetected` (the one-node cycle). -/
theorem declare_precedes_self_loop (f : Flow) (t : Task) (hwf : f.WF)
    (hcl : ∀ u ∈ f.nodes, u.name = t.name → u = t) :
    ∃ f', f.declare_precedes t t = .ok f' ∧ t ∈ f'.predsOf t ∧
      ∃ t', f'.sorted_tasks = .error (.cycleDetected t') ∧
        Relation.TransGen f'.edg t' t' := by
  obtain ⟨f₁, ha, hwf₁, hm₁⟩ := add_task_self_ok f t hwf hcl
  have hb : f₁.add_task t = .ok f₁ := by
    unfold Flow.add_task
    rw [if_pos hm₁]
  have hdp : f.declare_precedes t t =
      .ok { f₁ with graph := addEdge f₁.graph t t } := by
    simp only [Flow.declare_precedes, ha, hb]
  obtain ⟨ps, hps⟩ := lookupTask_isSome_of_mem_keys f₁.graph t hm₁
  have hpred : t ∈ Flow.predsOf { f₁ with graph := addEdge f₁.graph t t } t := by
    show t ∈ predsG (addEdge f₁.graph t t) t
    unfold predsG
    rw [lookup_addEdge_self f₁.graph t t ps hps]
    by_cases hu : t ∈ ps <;> simp [hu]
  have hwf' : Flow.WF { f₁ with graph := addEdge f₁.graph t t } :=
    wf_addEdge f₁ t t hwf₁ hm₁
  obtain ⟨t', ht', htr⟩ := error_of_cyclic _ hwf'
    ⟨t, Relation.TransGen.single hpred⟩
  exact ⟨{ f₁ with graph := addEdge f₁.graph t t }, hdp, hpred, t', ht', htr⟩

theorem declare_precedes_self_loop_witness :
    ∃ f', demoFlow.declare_precedes demoTask1 demoTask1 = .ok f' ∧
      demoTask1 ∈ f'.predsOf demoTask1 ∧
      ∃ t', f'.sorted_tasks = .error (.cycleDetected t') ∧
        Relation.TransGen f'.edg t' t' :=
  declare_precedes_self_loop demoFlow demoTask1 (by decide) (by decide)

/-- C8 counterexample: `declare_precedes(flow, t, t)` does not succeed for
every flow and task; auto-registration of `t` fails with `DuplicateName`
when a different task with the same name is already indexed. -/
theorem declare_precedes_self_loop_cex :
    demoFlow.declare_precedes { id := 9, name := "t1" } { id := 9, name := "t1" }
      = .error (.duplicateName "t1") := by
  rfl

end Prefect

namespace PrefectCli

/-! ### Claim theorems C9 - C10: the agent CLI -/

/-- C9: `sorted(set(label))` hands the agent the lexicographically sorted
list of the distinct `--label` values; the result is invariant under
reordering and duplication of the command-line options. -/
theorem cli_labels_canonical (l l' : List String) (h : ∀ s, s ∈ l ↔ s ∈ l') :
    cliSortedLabels l = cliSortedLabels l' ∧
    (cliSortedLabels l).Sorted (· ≤ ·) ∧ (cliSortedLabels l).Nodup ∧
    ∀ s, s ∈ cliSortedLabels l ↔ s ∈ l := by
  have hmem : ∀ (x : List String) (s : String),
      s ∈ cliSortedLabels x ↔ s ∈ x := by
    intro x s
    unfold cliSortedLabels
    rw [(List.perm_insertionSort _ _).mem_iff, List.mem_dedup]
  have hnd : ∀ x : List String, (cliSortedLabels x).Nodup := fun x =>
    (List.perm_insertionSort _ _).symm.nodup (List.nodup_dedup x)
  have hsorted : ∀ x : List String, (cliSortedLabels x).Sorted (· ≤ ·) :=
    fun x => List.sorted_insertionSort _ _
  refine ⟨?_, hsorted l, hnd l, hmem l⟩
  have hperm : List.Perm (cliSortedLabels l) (cliSortedLabels l') := by
    rw [List.perm_ext_iff_of_nodup (hnd l) (hnd l')]
    intro s
    rw [hmem l s, hmem l' s, h s]
  exact List.eq_of_perm_of_sorted hperm (hsorted l) (hsorted l')

theorem cli_labels_canonical_witness :
    cliSortedLabels ["b", "a", "b"] = cliSortedLabels ["a", "b"] ∧
    (cliSortedLabels ["b", "a", "b"]).Sorted (· ≤ ·) ∧
    (cliSortedLabels ["b", "a", "b"]).Nodup ∧
    ∀ s, s ∈ cliSortedLabels ["b", "a", "b"] ↔ s ∈ ["b", "a", "b"] :=
  cli_labels_canonical ["b", "a", "b"] ["a", "b"]
    (by intro s; simp only [List.mem_cons, List.not_mem_nil, or_false]; tauto)

lemma splitAtFirstEq_append (k v : List Char) (hk : '=' ∉ k) :
    splitAtFirstEq (k ++ '=' :: v) = some (k, v) := by
  induction k with
  | nil => simp [splitAtFirstEq]
  | cons c k ih =>
    have hc : c ≠ '=' := fun he => hk (he ▸ List.mem_cons_self c k)
    have hk' : '=' ∉ k := fun hm => hk (List.mem_cons_of_mem c hm)
    simp [splitAtFirstEq, hc, ih hk']

lemma splitAtFirstEq_none (e : List Char) (he : '=' ∉ e) :
    splitAtFirstEq e = none := by
  induction e with
  | nil => rfl
  | cons c cs ih =>
    have hc : c ≠ '=' := fun h => he (h ▸ List.mem_cons_self c cs)
    have hcs : '=' ∉ cs := fun hm => he (List.mem_cons_of_mem c hm)
    simp [splitAtFirstEq, hc, ih hcs]

lemma parseEnvEntry_none (e : String) (he : '=' ∉ e.data) :
    parseEnvEntry e = none := by
  unfold parseEnvEntry
  rw [splitAtFirstEq_none e.data he]

lemma envVarsAux_error (e : String) (ys : List String) (he : '=' ∉ e.data) :
    ∀ xs m, ∃ msg, envVarsAux m (xs ++ e :: ys) = .error msg := by
  intro xs
  induction xs with
  | nil =>
    intro m
    refine ⟨"dictionary update sequence element has length 1; 2 is required", ?_⟩
    simp only [List.nil_append, envVarsAux, parseEnvEntry_none e he]
  | cons x xs ih =>
    intro m
    cases hx : parseEnvEntry x with
    | some kv =>
      obtain ⟨k, v⟩ := kv
      obtain ⟨msg, hmsg⟩ := ih (upsert m k v)
      refine ⟨msg, ?_⟩
      simp only [List.cons_append, envVarsAux, hx]
      exact hmsg
    | none =>
      refine ⟨"dictionary update sequence element has length 1; 2 is required", ?_⟩
      simp only [List.cons_append, envVarsAux, hx]

/-- C10: each `--env` entry is split at the first `'='` only, binding the
key to the entire remainder (which may itself contain `'='`); an entry with
no `'='` makes the call fail rather than being silently skipped. -/
theorem env_vars_split_first (k v e : String) (env₁ env₂ : List String)
    (hk : '=' ∉ k.data) (he : '=' ∉ e.data) :
    parseEnvEntry (k ++ "=" ++ v) = some (k, v) ∧
    env_vars [k ++ "=" ++ v] = .ok [(k, v)] ∧
    ∃ msg, env_vars (env₁ ++ e :: env₂) = .error msg := by
  have heq : ("=" : String).data = ['='] := rfl
  have hdata : (k ++ "=" ++ v).data = k.data ++ '=' :: v.data := by
    rw [String.data_append, String.data_append, heq]
    simp
  have hparse : parseEnvEntry (k ++ "=" ++ v) = some (k, v) := by
    unfold parseEnvEntry
    rw [hdata, splitAtFirstEq_append k.data v.data hk]
  refine ⟨hparse, ?_, envVarsAux_error e env₂ he env₁ []⟩
  show envVarsAux [] [k ++ "=" ++ v] = .ok [(k, v)]
  simp only [envVarsAux, hparse]
  simp [envVarsAux, upsert]

theorem env_vars_split_first_witness :
    parseEnvEntry ("KEY" ++ "=" ++ "a=b") = some ("KEY", "a=b") ∧
    env_vars ["KEY" ++ "=" ++ "a=b"] = .ok [("KEY", "a=b")] ∧
    ∃ msg, env_vars (["A=1"] ++ "BAD" :: ["B=2"]) = .error msg :=
  env_vars_split_first "KEY" "a=b" "BAD" ["A=1"] ["B=2"] (by decide) (by decide)

end PrefectCli
